import Mathlib

/-!
Verification of the MOSFiT BNS-ejecta and shock-cocoon modules.

This file embeds, over the real numbers, the two numeric evaluators of the
repository:

* `BNS` — the `BNSEjecta.process` pipeline of
  `mosfit/modules/energetics/bns_ejecta_generative.py`: chirp-mass inversion,
  the Dietrich-Ujevic dynamical-ejecta fit, the Sekiguchi red-fraction fit,
  trapezoidal angular averaging of the dynamical-ejecta velocity, the
  Bauswein prompt-collapse threshold, the Coughlin disk-mass fit, and the
  four-branch disk-regime classification with its Ye/vdisk interpolations.

* `Shock` — the `Shock.process` evaluator of
  `mosfit/modules/engines/shock_cocoon.py` (Piro-Kollmeier shock cooling).
  Because that code leans on IEEE special values (`np.inf` for pre-explosion
  epochs, the `isnan` filter), its per-time value is embedded in a small
  inductive type `F` of "finite real / +inf / -inf / nan" with the IEEE
  rules for the three operations the code performs on such values
  (division by a finite number, raising to a real power, multiplication by
  a finite number).

Python float `**` is modelled by `Real.rpow`, `numpy.sqrt` by `Real.sqrt`,
`numpy.arccos`/`sin`/`cos`/`tanh` by the corresponding `Real` functions,
`numpy.arange`/`numpy.trapz` by explicit list recursions with numpy's
length semantics, and `numpy.polyfit` on two distinct points by the exact
interpolating line.
-/

noncomputable section

namespace MFit

/-- Modelled from the spec: the shared constants table (`mosfit.constants`,
not part of the sources) supplies the speed of light in cgs units. -/
def C_CGS : ℝ := 2.99792458e10

/-- Modelled from the spec: km in cgs units from the shared constants table. -/
def KM_CGS : ℝ := 1e5

/-- Modelled from the spec: solar mass in grams from the shared constants table. -/
def M_SUN_CGS : ℝ := 1.989e33

/-- Modelled from the spec: Newton's constant in cgs from the shared constants table. -/
def G_CGS : ℝ := 6.674e-8

/-- Modelled from the spec: seconds per day from the shared constants table. -/
def DAY_CGS : ℝ := 86400

/-- Modelled from the spec: 4*pi from the shared constants table. -/
def FOUR_PI : ℝ := 4 * Real.pi

/-- `ckm = C_CGS / KM_CGS`, the velocity conversion factor used by `process`. -/
def ckm : ℝ := C_CGS / KM_CGS

namespace BNS

/-- The named inputs read by `BNSEjecta.process` (one field per `kwargs` key). -/
structure Inputs where
  Mchirp : ℝ
  q : ℝ
  disk_frac : ℝ
  Mtov : ℝ
  radius_ns : ℝ
  alpha : ℝ
  cos_theta_open : ℝ
  errMdyn : ℝ
  errMdisk : ℝ

/-- Mass of the heavier NS: `m1 = mchirp * q**-0.6 * (q+1)**0.2`. -/
def m1 (p : Inputs) : ℝ := p.Mchirp * p.q ^ (-0.6 : ℝ) * (p.q + 1) ^ (0.2 : ℝ)

/-- Mass of the lighter NS: `m2 = m1 * q`. -/
def m2 (p : Inputs) : ℝ := m1 p * p.q

/-- `m_total = m1 + m2`. -/
def m_total (p : Inputs) : ℝ := m1 p + m2 p

/-- `theta_open = arccos(cos_theta_open)`. -/
def theta_open (p : Inputs) : ℝ := Real.arccos p.cos_theta_open

/-- Compactness of the heavier NS:
`C1 = G_CGS * m1 * M_SUN_CGS / (radius_ns*1e5 * C_CGS**2)`. -/
def C1 (p : Inputs) : ℝ :=
  G_CGS * m1 p * M_SUN_CGS / (p.radius_ns * 1e5 * C_CGS ^ 2)

/-- Compactness of the lighter NS. -/
def C2 (p : Inputs) : ℝ :=
  G_CGS * m2 p * M_SUN_CGS / (p.radius_ns * 1e5 * C_CGS ^ 2)

/-- Baryonic mass of the heavier NS: `Mb1 = m1 + 0.08*m1**2`. -/
def Mb1 (p : Inputs) : ℝ := m1 p + 0.08 * m1 p ^ 2

/-- Baryonic mass of the lighter NS: `Mb2 = m2 + 0.08*m2**2`. -/
def Mb2 (p : Inputs) : ℝ := m2 p + 0.08 * m2 p ^ 2

/-- The Dietrich-Ujevic 2017 dynamical-ejecta fitting formula (the value of the
local variable `Mejdyn` right after the `1e-3 * (...)` assignment). -/
def MejdynFit (p : Inputs) : ℝ :=
  1e-3 * ((-1.35695) * ((m2 p / m1 p) ^ ((1:ℝ)/3) * (1 - 2 * C1 p) / C1 p * Mb1 p +
            (m1 p / m2 p) ^ ((1:ℝ)/3) * (1 - 2 * C2 p) / C2 p * Mb2 p) +
          6.11252 * ((m2 p / m1 p) ^ (-2.5484 : ℝ) * Mb1 p +
            (m1 p / m2 p) ^ (-2.5484 : ℝ) * Mb2 p) +
          (-49.43355) * (Mb1 p - m1 p + Mb2 p - m2 p) + 16.1144)

/-- `Mejdyn` after the `*= errMdyn` scaling and the `if Mejdyn < 0: Mejdyn = 0`
clamp; this is the `mejecta_dyn` output. -/
def Mejdyn (p : Inputs) : ℝ :=
  if MejdynFit p * p.errMdyn < 0 then 0 else MejdynFit p * p.errMdyn

/-- Red (`Ye < 0.25`) fraction of the dynamical ejecta:
`f_red = min(a_4*(m1/m2)**2 + b_4*(m1/m2) + c_4, 1)`. -/
def f_red (p : Inputs) : ℝ :=
  min (14.8609 * (m1 p / m2 p) ^ 2 + (-28.6148) * (m1 p / m2 p) + 13.9597) 1

/-- In-plane dynamical-ejecta velocity fit `vdynp`. -/
def vdynp (p : Inputs) : ℝ :=
  (-0.219479) * ((m1 p / m2 p) * (1 + (-2.67385) * C1 p) +
    (m2 p / m1 p) * (1 + (-2.67385) * C2 p)) + 0.444836

/-- Polar dynamical-ejecta velocity fit `vdynz`. -/
def vdynz (p : Inputs) : ℝ :=
  (-0.315585) * ((m1 p / m2 p) * (1 + (-1.00757) * C1 p) +
    (m2 p / m1 p) * (1 + (-1.00757) * C2 p)) + 0.63808

/-- Total dynamical velocity `vdyn = sqrt(vdynp**2 + vdynz**2)`. -/
def vdyn (p : Inputs) : ℝ := Real.sqrt (vdynp p ^ 2 + vdynz p ^ 2)

/-- `numpy.arange` helper: `n` equally spaced points starting at `a`. -/
def arangeAux (a s : ℝ) : ℕ → List ℝ
  | 0 => []
  | n + 1 => a :: arangeAux (a + s) s n

/-- `numpy.arange(start, stop, step)`: numpy produces
`ceil((stop-start)/step)` points (none when the interval is empty). -/
def arange (start stop step : ℝ) : List ℝ :=
  arangeAux start step ⌈(stop - start) / step⌉₊

/-- `numpy.trapz(y, x)`: the trapezoidal rule over matched sample lists. -/
def trapz : List ℝ → List ℝ → ℝ
  | y1 :: y2 :: ys, x1 :: x2 :: xs =>
    (x2 - x1) * (y1 + y2) / 2 + trapz (y2 :: ys) (x2 :: xs)
  | _, _ => 0

/-- `theta1 = np.arange(0, theta_open, 0.01)`. -/
def theta1 (p : Inputs) : List ℝ := arange 0 (theta_open p) 0.01

/-- `theta2 = np.arange(theta_open, pi/2, 0.01)`. -/
def theta2 (p : Inputs) : List ℝ := arange (theta_open p) (Real.pi / 2) 0.01

/-- Angular velocity profile
`sqrt((vdynz*cos(theta))**2 + (vdynp*sin(theta))**2)`. -/
def vthetaFun (p : Inputs) (t : ℝ) : ℝ :=
  Real.sqrt ((vdynz p * Real.cos t) ^ 2 + (vdynp p * Real.sin t) ^ 2)

/-- Solid-angle weight `2*pi*sin(theta)`. -/
def athetaFun (t : ℝ) : ℝ := 2 * Real.pi * Real.sin t

/-- `vejecta_blue`: the velocity-weighted over area-weighted trapezoidal
average on `theta1`, converted by `ckm`. -/
def vejecta_blue (p : Inputs) : ℝ :=
  trapz ((theta1 p).map (fun t => vthetaFun p t * athetaFun t)) (theta1 p) /
      trapz ((theta1 p).map athetaFun) (theta1 p) * ckm

/-- `vejecta_red`: the same average on `theta2`, converted by `ckm`. -/
def vejecta_red (p : Inputs) : ℝ :=
  trapz ((theta2 p).map (fun t => vthetaFun p t * athetaFun t)) (theta2 p) /
      trapz ((theta2 p).map athetaFun) (theta2 p) * ckm

/-- Bauswein 2013 prompt-collapse threshold:
`Mthr = (2.38 - 3.606*Mtov/radius_ns)*Mtov`. -/
def Mthr (p : Inputs) : ℝ := (2.38 - 3.606 * p.Mtov / p.radius_ns) * p.Mtov

/-- `mejecta_red = Mejdyn * f_red` (unaffected by the alpha branch). -/
def mejecta_red (p : Inputs) : ℝ := Mejdyn p * f_red p

/-- `mejecta_blue = Mejdyn * (1 - f_red)`, divided by `alpha` when
`m_total < Mthr` (no prompt collapse). -/
def mejecta_blue (p : Inputs) : ℝ :=
  if m_total p < Mthr p then Mejdyn p * (1 - f_red p) / p.alpha
  else Mejdyn p * (1 - f_red p)

/-- `np.polyfit([x1,x2],[y1,y2],deg=1)` on two distinct abscissae: the
interpolating line, returned as (slope, intercept). -/
def polyfit2 (x1 x2 y1 y2 : ℝ) : ℝ × ℝ :=
  ((y2 - y1) / (x2 - x1), y1 - (y2 - y1) / (x2 - x1) * x1)

/-- `vdisk_max = 0.15`. -/
def vdisk_max : ℝ := 0.15

/-- `vdisk_min = 0.03`. -/
def vdisk_min : ℝ := 0.03

/-- Coughlin+ 2019 disk mass (log10), floored at -3:
`logMdisk = max(-3, a_5*(1 + b_5*tanh((c_5 - m_total/Mthr)/d_5)))`. -/
def logMdisk (p : Inputs) : ℝ :=
  max (-3) ((-31.335) *
    (1 + (-0.9760) * Real.tanh ((1.0474 - m_total p / Mthr p) / 0.05957)))

/-- `Mdisk = 10**logMdisk` before the scatter scaling. -/
def MdiskFit (p : Inputs) : ℝ := (10:ℝ) ^ logMdisk p

/-- `Mdisk` after `*= errMdisk`. -/
def Mdisk (p : Inputs) : ℝ := MdiskFit p * p.errMdisk

/-- `Mejdisk = Mdisk * disk_frac`; this is the `mejecta_purple` output. -/
def Mejdisk (p : Inputs) : ℝ := Mdisk p * p.disk_frac

/-- The `mejecta_purple` output. -/
def mejecta_purple (p : Inputs) : ℝ := Mejdisk p

/-- The four-branch disk-regime classification (`if/elif/elif/else` chain on
`m_total` against `Mtov`, `1.2*Mtov`, `Mthr`, strict `<`, first match wins),
returning the pair `(Ye, vdisk)`. -/
def YeVdiskOf (m mtov mthr : ℝ) : ℝ × ℝ :=
  if m < mtov then (0.38, vdisk_max)
  else if m < 1.2 * mtov then
    ((polyfit2 mtov (1.2 * mtov) 0.38 0.34).1 * m +
       (polyfit2 mtov (1.2 * mtov) 0.38 0.34).2,
     (polyfit2 mtov mthr vdisk_max vdisk_min).1 * m +
       (polyfit2 mtov mthr vdisk_max vdisk_min).2)
  else if m < mthr then
    ((polyfit2 (1.2 * mtov) mthr 0.34 0.25).1 * m +
       (polyfit2 (1.2 * mtov) mthr 0.34 0.25).2,
     (polyfit2 mtov mthr vdisk_max vdisk_min).1 * m +
       (polyfit2 mtov mthr vdisk_max vdisk_min).2)
  else (0.25, vdisk_min)

/-- The electron fraction selected by the regime classification. -/
def Ye (p : Inputs) : ℝ := (YeVdiskOf (m_total p) p.Mtov (Mthr p)).1

/-- The disk velocity selected by the regime classification. -/
def vdisk (p : Inputs) : ℝ := (YeVdiskOf (m_total p) p.Mtov (Mthr p)).2

/-- Tanaka+ 2019 opacity cubic:
`kappa = a_6*Ye**3 + b_6*Ye**2 + c_6*Ye + d_6`. -/
def kappaOfYe (y : ℝ) : ℝ :=
  2112.0 * y ^ 3 + (-2238.9) * y ^ 2 + 742.35 * y + (-73.14)

/-- The `kappa_purple` output. -/
def kappa_purple (p : Inputs) : ℝ := kappaOfYe (Ye p)

/-- The `vejecta_purple` output: `vdisk * ckm`. -/
def vejecta_purple (p : Inputs) : ℝ := vdisk p * ckm

/-- The four regime conditions in the order the code tests them, each
conjoined with the failure of the previous strict comparisons
(first-match-wins semantics of the `if/elif` chain). -/
def branch (m mtov mthr : ℝ) : Fin 4 → Prop
  | 0 => m < mtov
  | 1 => ¬ m < mtov ∧ m < 1.2 * mtov
  | 2 => ¬ m < mtov ∧ ¬ m < 1.2 * mtov ∧ m < mthr
  | 3 => ¬ m < mtov ∧ ¬ m < 1.2 * mtov ∧ ¬ m < mthr

/-- Equal-mass input (`m_total = 2`) with `Mtov = 1`, `radius_ns = 3.606`,
so `Mthr = 1.38 < m_total`: the disk-mass tanh term saturates low. -/
def ex7 : Inputs := ⟨(2:ℝ) ^ (-(0.2:ℝ)), 1, 0.3, 1, 3.606, 1, 0.5, 1, 1⟩

/-- Input with a fully closed polar cone: `cos_theta_open = 1`. -/
def ex6c : Inputs := ⟨1, 1, 0.3, 2.2, 10, 1, 1, 1, 1⟩

/-- Physical input with opening angle `pi/3` (`cos_theta_open = 0.5`). -/
def ex6 : Inputs := ⟨1, 1, 0.3, 2, 10, 1, 0.5, 1, 1⟩

/-- The same input record with only the wind parameter `alpha` replaced. -/
def setAlpha (p : Inputs) (a : ℝ) : Inputs :=
  ⟨p.Mchirp, p.q, p.disk_frac, p.Mtov, p.radius_ns, a, p.cos_theta_open,
    p.errMdyn, p.errMdisk⟩

/-- Concrete equal-mass input (`Mchirp = 2^(-0.2)` makes `m1 = m2 = 1`,
`m_total = 2`) that avoids prompt collapse (`Mthr = 3.490696`) and has
`alpha = 2`. -/
def ex3 : Inputs := ⟨(2:ℝ) ^ (-(0.2:ℝ)), 1, 0.3, 2.2, 10, 2, 0.5, 1, 1⟩

/-- Concrete equal-mass input in the prompt-collapse regime
(`Mthr = 1.849914 < 2 = m_total`). -/
def ex3b : Inputs := ⟨(2:ℝ) ^ (-(0.2:ℝ)), 1, 0.3, 0.9, 10, 2, 0.5, 1, 1⟩

end BNS

namespace Shock

/-- IEEE-style value domain for the shock-cocoon evaluator: a finite real,
`+inf` (pre-explosion epochs are mapped to `np.inf`), `-inf`, or `nan`. -/
inductive F where
  | fin : ℝ → F
  | inf : F
  | ninf : F
  | nan : F

/-- The named inputs read by `Shock.process` (one field per `kwargs` key). -/
structure ShockInputs where
  dense_times : List ℝ
  rest_t_explosion : ℝ
  kappa : ℝ
  mejecta : ℝ
  vejecta : ℝ
  cos_theta_cocoon : ℝ
  s : ℝ
  t_shock : ℝ

/-- `DIFF_CONST = M_SUN_CGS / (FOUR_PI * C_CGS * KM_CGS)`. -/
def DIFF_CONST : ℝ := M_SUN_CGS / (FOUR_PI * C_CGS * KM_CGS)

/-- Shock radius `R = C_CGS * t_shock`. -/
def R (p : ShockInputs) : ℝ := C_CGS * p.t_shock

/-- Cocoon opening angle `theta = arccos(cos_theta_cocoon)`. -/
def theta (p : ShockInputs) : ℝ := Real.arccos p.cos_theta_cocoon

/-- Diffusion timescale in days:
`tau_diff = sqrt(DIFF_CONST*kappa*mejecta/vejecta)/DAY_CGS`. -/
def tau_diff (p : ShockInputs) : ℝ :=
  Real.sqrt (DIFF_CONST * p.kappa * p.mejecta / p.vejecta) / DAY_CGS

/-- Peak luminosity normalisation (Piro-Kollmeier 2018):
`L0 = (theta**2/2)**(1/3) * mejecta*M_SUN_CGS*vejecta*KM_CGS*R/(tau_diff*DAY_CGS)**2`. -/
def L0 (p : ShockInputs) : ℝ :=
  (theta p ^ 2 / 2) ^ ((1:ℝ)/3) *
    (p.mejecta * M_SUN_CGS * p.vejecta * KM_CGS * R p /
      (tau_diff p * DAY_CGS) ^ 2)

/-- IEEE division of an extended value by a finite real. -/
def Fdiv : F → ℝ → F
  | F.fin x, c => F.fin (x / c)
  | F.inf, c => if c < 0 then F.ninf else F.inf
  | F.ninf, c => if c < 0 then F.inf else F.ninf
  | F.nan, _ => F.nan

/-- IEEE power of an extended value to a finite real exponent (the cases the
evaluator can reach; a negative finite base yields `nan` as for float
`**` with non-integral exponent). -/
def Fpow : F → ℝ → F
  | F.fin x, e =>
    if 0 < x then F.fin (x ^ e)
    else if x = 0 then
      (if 0 < e then F.fin 0 else if e = 0 then F.fin 1 else F.inf)
    else F.nan
  | F.inf, e => if 0 < e then F.inf else if e = 0 then F.fin 1 else F.fin 0
  | F.ninf, _ => F.nan
  | F.nan, _ => F.nan

/-- IEEE multiplication of an extended value by a finite real. -/
def Fmul (c : ℝ) : F → F
  | F.fin x => F.fin (c * x)
  | F.inf => if 0 < c then F.inf else if c < 0 then F.ninf else F.nan
  | F.ninf => if 0 < c then F.ninf else if c < 0 then F.inf else F.nan
  | F.nan => F.nan

/-- The `0.0 if isnan(x) else x` filter: only `nan` is replaced. -/
def nanZero : F → F
  | F.nan => F.fin 0
  | x => x

/-- The per-epoch time since explosion:
`np.inf if rest_t_explosion > x else x - rest_t_explosion`. -/
def tAt (p : ShockInputs) (x : ℝ) : F :=
  if p.rest_t_explosion > x then F.inf else F.fin (x - p.rest_t_explosion)

/-- One luminosity sample: `L0 * (t/tau_diff)**-(4/(s+2))`. -/
def lumAt (p : ShockInputs) (x : ℝ) : F :=
  Fmul (L0 p) (Fpow (Fdiv (tAt p x) (tau_diff p)) (-(4 / (p.s + 2))))

/-- The returned `luminosities` list, one value per entry of `dense_times`
in order, with `nan` samples replaced by `0.0`. -/
def luminosities (p : ShockInputs) : List F :=
  p.dense_times.map (fun x => nanZero (lumAt p x))

/-- Pre-explosion epoch with `s = -3 < -2`. -/
def ex8 : ShockInputs := ⟨[0], 1, 1, 1, 1, 0, -3, 1⟩

/-- Two epochs around the explosion with `s = 1`. -/
def ex8w : ShockInputs := ⟨[0, 2], 1, 1, 1, 1, 0, 1, 1⟩

/-- Closed cocoon (`cos_theta_cocoon = 1`): zero luminosity normalisation. -/
def ex9c : ShockInputs := ⟨[1e6, 2e6], 0, 1, 1, 1, 1, 1, 1⟩

/-- Open cocoon, two late epochs past `rest_t_explosion + tau_diff`. -/
def ex9 : ShockInputs := ⟨[3000, 4000], 0, 1, 1, 1, 0, 1, 1⟩

end Shock

end MFit

namespace MFit.BNS

/-- Claim C5 — for every `mchirp > 0` and `0 < q <= 1`, the derived masses
satisfy `M1 >= M2 > 0` and `M1 + M2` is exactly the `m_total` used by the
rest of the computation. -/
theorem mass_inversion_ordered (p : Inputs) (hc : 0 < p.Mchirp) (hq : 0 < p.q)
    (hq1 : p.q ≤ 1) :
    0 < m2 p ∧ m2 p ≤ m1 p ∧ m1 p + m2 p = m_total p := by
  have h1 : 0 < m1 p := by
    have hq6 : (0:ℝ) < p.q ^ (-0.6 : ℝ) := Real.rpow_pos_of_pos hq _
    have hq2 : (0:ℝ) < (p.q + 1) ^ (0.2 : ℝ) :=
      Real.rpow_pos_of_pos (by linarith) _
    exact mul_pos (mul_pos hc hq6) hq2
  refine ⟨mul_pos h1 hq, ?_, rfl⟩
  calc m1 p * p.q ≤ m1 p * 1 := by
        exact mul_le_mul_of_nonneg_left hq1 h1.le
    _ = m1 p := mul_one _

/-- Witness for C5 at `mchirp = 1`, `q = 1/2`. -/
theorem mass_inversion_ordered_witness :
    0 < m2 ⟨1, 1/2, 0.3, 2.2, 11, 1, 0.5, 1, 1⟩ ∧
      m2 ⟨1, 1/2, 0.3, 2.2, 11, 1, 0.5, 1, 1⟩ ≤ m1 ⟨1, 1/2, 0.3, 2.2, 11, 1, 0.5, 1, 1⟩ ∧
      m1 ⟨1, 1/2, 0.3, 2.2, 11, 1, 0.5, 1, 1⟩ + m2 ⟨1, 1/2, 0.3, 2.2, 11, 1, 0.5, 1, 1⟩ =
        m_total ⟨1, 1/2, 0.3, 2.2, 11, 1, 0.5, 1, 1⟩ :=
  mass_inversion_ordered _ (by norm_num) (by norm_num) (by norm_num)

/-- The Sekiguchi red-fraction quadratic is positive for every real mass
ratio: its discriminant `28.6148^2 - 4*14.8609*13.9597` is negative. -/
theorem redQuad_pos (r : ℝ) :
    0 < 14.8609 * r ^ 2 + (-28.6148) * r + 13.9597 := by
  nlinarith [sq_nonneg (29.7218 * r - 28.6148)]

/-- Counterexample for claim C2 — the claim asserts that `f_red` is negative
for some extreme mass ratio, but no input whatsoever makes `f_red`
negative: the unclamped quadratic has negative discriminant, so
`f_red = min(quadratic, 1)` is strictly positive everywhere. -/
theorem f_red_never_negative : ¬ ∃ p : Inputs, f_red p < 0 := by
  rintro ⟨p, hp⟩
  have h := redQuad_pos (m1 p / m2 p)
  have : (0:ℝ) < f_red p := lt_min h one_pos
  linarith

/-- Claim C2, amended — for every input, `f_red <= 1` (the upper clamp
holds), and `f_red` is in fact strictly positive for every input: the
quadratic `14.8609 r^2 - 28.6148 r + 13.9597` never crosses zero, so no
lower clamp is ever exercised. -/
theorem f_red_bounds (p : Inputs) : 0 < f_red p ∧ f_red p ≤ 1 :=
  ⟨lt_min (redQuad_pos _) one_pos, min_le_right _ _⟩

/-- Claim C4 — for valid inputs (`errMdyn > 0`, `alpha >= 1`, masses and
radius in their stated domains) the returned `mejecta_dyn`, `mejecta_blue`
and `mejecta_red` are all nonnegative. -/
theorem mejecta_nonneg (p : Inputs) (herr : 0 < p.errMdyn) (ha : 1 ≤ p.alpha)
    (hc : 0 < p.Mchirp) (hq : 0 < p.q) (hq1 : p.q ≤ 1)
    (htov : 0 < p.Mtov) (hr : 0 < p.radius_ns) :
    0 ≤ Mejdyn p ∧ 0 ≤ mejecta_blue p ∧ 0 ≤ mejecta_red p := by
  have hdyn : 0 ≤ Mejdyn p := by
    unfold Mejdyn
    split
    · exact le_refl 0
    · next h => exact not_lt.mp h
  have hf1 : f_red p ≤ 1 := min_le_right _ _
  have hf0 : 0 < f_red p := lt_min (redQuad_pos _) one_pos
  refine ⟨hdyn, ?_, mul_nonneg hdyn hf0.le⟩
  have hbase : 0 ≤ Mejdyn p * (1 - f_red p) := mul_nonneg hdyn (by linarith)
  unfold mejecta_blue
  split
  · exact div_nonneg hbase (by linarith)
  · exact hbase

/-- For any input with `Mchirp = 2^(-0.2)` and `q = 1` the heavier mass is 1. -/
theorem m1_eq_one (p : Inputs) (hM : p.Mchirp = (2:ℝ) ^ (-(0.2:ℝ)))
    (hq : p.q = 1) : m1 p = 1 := by
  unfold m1
  rw [hM, hq, Real.one_rpow, mul_one,
    show ((1:ℝ) + 1) = 2 by norm_num,
    ← Real.rpow_add (by norm_num : (0:ℝ) < 2),
    show (-(0.2:ℝ)) + 0.2 = 0 by norm_num, Real.rpow_zero]

/-- For any input with `Mchirp = 2^(-0.2)` and `q = 1` the lighter mass is 1. -/
theorem m2_eq_one (p : Inputs) (hM : p.Mchirp = (2:ℝ) ^ (-(0.2:ℝ)))
    (hq : p.q = 1) : m2 p = 1 := by
  unfold m2
  rw [m1_eq_one p hM hq, hq, mul_one]

/-- For any input with `Mchirp = 2^(-0.2)` and `q = 1` the total mass is 2. -/
theorem m_total_eq_two (p : Inputs) (hM : p.Mchirp = (2:ℝ) ^ (-(0.2:ℝ)))
    (hq : p.q = 1) : m_total p = 2 := by
  unfold m_total
  rw [m1_eq_one p hM hq, m2_eq_one p hM hq]
  norm_num

/-- The Dietrich-Ujevic fit is strictly positive at the concrete input `ex3`. -/
theorem ex3_MejdynFit_pos : 0 < MejdynFit ex3 := by
  have h1 : m1 ex3 = 1 := m1_eq_one _ rfl rfl
  have h2 : m2 ex3 = 1 := m2_eq_one _ rfl rfl
  unfold MejdynFit C1 C2 Mb1 Mb2
  rw [h1, h2]
  norm_num [ex3, G_CGS, M_SUN_CGS, C_CGS, Real.one_rpow]

/-- At `ex3` the scatter factor is 1 and the clamp is not exercised. -/
theorem ex3_Mejdyn : Mejdyn ex3 = MejdynFit ex3 := by
  have he : ex3.errMdyn = 1 := rfl
  unfold Mejdyn
  rw [he, mul_one, if_neg (not_lt.2 ex3_MejdynFit_pos.le)]

/-- The red fraction at the equal-mass input `ex3`. -/
theorem ex3_f_red : f_red ex3 = 0.2058 := by
  have h1 : m1 ex3 = 1 := m1_eq_one _ rfl rfl
  have h2 : m2 ex3 = 1 := m2_eq_one _ rfl rfl
  unfold f_red
  rw [h1, h2,
    show (14.8609 * ((1:ℝ)/1) ^ 2 + (-28.6148) * ((1:ℝ)/1) + 13.9597) = 0.2058
      by norm_num]
  exact min_eq_left (by norm_num)

/-- Counterexample for claim C3 — at the no-prompt-collapse input `ex3`
(`alpha = 2`), the claimed check `mejecta_blue/alpha + mejecta_red =
mejecta_dyn` fails: the output `mejecta_blue` has already been divided by
`alpha`, so it must be multiplied (not divided) to recover the split. -/
theorem split_alpha_inversion_cex :
    m_total ex3 < Mthr ex3 ∧
      mejecta_blue ex3 / 2 + mejecta_red ex3 ≠ Mejdyn ex3 := by
  have hlt : m_total ex3 < Mthr ex3 := by
    rw [m_total_eq_two ex3 rfl rfl]
    unfold Mthr
    norm_num [ex3]
  refine ⟨hlt, ?_⟩
  have hblue : mejecta_blue ex3 = Mejdyn ex3 * (1 - f_red ex3) / 2 := by
    unfold mejecta_blue
    rw [if_pos hlt]
    norm_num [ex3]
  intro hcontra
  rw [hblue, ex3_Mejdyn, mejecta_red, ex3_Mejdyn, ex3_f_red] at hcontra
  nlinarith [ex3_MejdynFit_pos, hcontra]

/-- Claim C3, amended — whenever `m_total >= Mthr` the outputs satisfy
`mejecta_blue + mejecta_red = mejecta_dyn` exactly; when `m_total < Mthr`
the output `mejecta_blue` alone has been divided by `alpha`, and the
original split is recovered by `mejecta_blue * alpha + mejecta_red =
mejecta_dyn` (for `alpha /= 0`); `mejecta_red` and `mejecta_dyn` do not
depend on `alpha` at all. -/
theorem dyn_split_conservation (p : Inputs) :
    (Mthr p ≤ m_total p → mejecta_blue p + mejecta_red p = Mejdyn p) ∧
    (m_total p < Mthr p → p.alpha ≠ 0 →
      mejecta_blue p * p.alpha + mejecta_red p = Mejdyn p) ∧
    (∀ a : ℝ, mejecta_red (setAlpha p a) = mejecta_red p ∧
      Mejdyn (setAlpha p a) = Mejdyn p) := by
  refine ⟨?_, ?_, fun a => ⟨rfl, rfl⟩⟩
  · intro h
    unfold mejecta_blue mejecta_red
    rw [if_neg (not_lt.2 h)]
    ring
  · intro h ha
    unfold mejecta_blue mejecta_red
    rw [if_pos h]
    field_simp
    ring

/-- Witness for the amended C3: both regimes at concrete inputs. -/
theorem dyn_split_conservation_witness :
    mejecta_blue ex3 * (2:ℝ) + mejecta_red ex3 = Mejdyn ex3 ∧
      mejecta_blue ex3b + mejecta_red ex3b = Mejdyn ex3b := by
  constructor
  · have hlt : m_total ex3 < Mthr ex3 := by
      rw [m_total_eq_two ex3 rfl rfl]
      unfold Mthr
      norm_num [ex3]
    exact (dyn_split_conservation ex3).2.1 hlt (by norm_num [ex3])
  · have hge : Mthr ex3b ≤ m_total ex3b := by
      rw [m_total_eq_two ex3b rfl rfl]
      unfold Mthr
      norm_num [ex3b]
    exact (dyn_split_conservation ex3b).1 hge

/-- Claim C1 — for `m_total > 0`, `Mtov > 0` and physically ordered
thresholds (`1.2*Mtov < Mthr`), exactly one of the four first-match-wins
disk-regime branches fires, and both `Ye` and `vdisk` are continuous at the
three branch boundaries: at `m = Mtov` the branch-2 interpolants evaluate
to the branch-1 constants `(0.38, vdisk_max)`; at `m = 1.2*Mtov` the
branch-2 `Ye` line reaches `0.34`, which is what the branch-3 line (the one
the boundary point itself uses) evaluates to, and the `vdisk` line is
shared by branches 2 and 3; at `m = Mthr` the branch-3 lines reach
`(0.25, vdisk_min)`, the branch-4 constants the boundary point uses. -/
theorem disk_regime_classification (m mtov mthr : ℝ) (hm : 0 < m)
    (htov : 0 < mtov) (hord : 1.2 * mtov < mthr) :
    (∃! i : Fin 4, branch m mtov mthr i) ∧
    YeVdiskOf mtov mtov mthr = (0.38, vdisk_max) ∧
    ((polyfit2 mtov (1.2 * mtov) 0.38 0.34).1 * (1.2 * mtov) +
        (polyfit2 mtov (1.2 * mtov) 0.38 0.34).2 = 0.34) ∧
    (YeVdiskOf (1.2 * mtov) mtov mthr).1 = 0.34 ∧
    ((YeVdiskOf (1.2 * mtov) mtov mthr).2 =
      (polyfit2 mtov mthr vdisk_max vdisk_min).1 * (1.2 * mtov) +
        (polyfit2 mtov mthr vdisk_max vdisk_min).2) ∧
    ((polyfit2 (1.2 * mtov) mthr 0.34 0.25).1 * mthr +
        (polyfit2 (1.2 * mtov) mthr 0.34 0.25).2 = 0.25) ∧
    ((polyfit2 mtov mthr vdisk_max vdisk_min).1 * mthr +
        (polyfit2 mtov mthr vdisk_max vdisk_min).2 = vdisk_min) ∧
    YeVdiskOf mthr mtov mthr = (0.25, vdisk_min) := by
  have h12 : mtov < 1.2 * mtov := by linarith
  have htm : mtov < mthr := by linarith
  refine ⟨?_, ?_, ?_, ?_, ?_, ?_, ?_, ?_⟩
  · by_cases h1 : m < mtov
    · refine ⟨0, h1, ?_⟩
      intro j hj
      fin_cases j
      · rfl
      · exact absurd h1 hj.1
      · exact absurd h1 hj.1
      · exact absurd h1 hj.1
    · by_cases h2 : m < 1.2 * mtov
      · refine ⟨1, ⟨h1, h2⟩, ?_⟩
        intro j hj
        fin_cases j
        · exact absurd hj h1
        · rfl
        · exact absurd h2 hj.2.1
        · exact absurd h2 hj.2.1
      · by_cases h3 : m < mthr
        · refine ⟨2, ⟨h1, h2, h3⟩, ?_⟩
          intro j hj
          fin_cases j
          · exact absurd hj h1
          · exact absurd hj.2 h2
          · rfl
          · exact absurd h3 hj.2.2
        · refine ⟨3, ⟨h1, h2, h3⟩, ?_⟩
          intro j hj
          fin_cases j
          · exact absurd hj h1
          · exact absurd hj.2 h2
          · exact absurd hj.2.2 h3
          · rfl
  · unfold YeVdiskOf
    rw [if_neg (lt_irrefl mtov), if_pos h12]
    unfold polyfit2 vdisk_max vdisk_min
    simp only [Prod.mk.injEq]
    constructor <;> ring
  · have hne : 1.2 * mtov - mtov ≠ 0 := by intro h; nlinarith
    unfold polyfit2
    field_simp
    ring
  · unfold YeVdiskOf
    rw [if_neg (not_lt.2 h12.le), if_neg (lt_irrefl (1.2 * mtov)), if_pos hord]
    unfold polyfit2
    ring
  · unfold YeVdiskOf
    rw [if_neg (not_lt.2 h12.le), if_neg (lt_irrefl (1.2 * mtov)), if_pos hord]
  · have hne : mthr - 1.2 * mtov ≠ 0 := by intro h; nlinarith
    unfold polyfit2
    field_simp
    ring
  · have hne : mthr - mtov ≠ 0 := by intro h; nlinarith
    unfold polyfit2 vdisk_max vdisk_min
    field_simp
    ring
  · unfold YeVdiskOf
    rw [if_neg (not_lt.2 htm.le), if_neg (not_lt.2 hord.le),
      if_neg (lt_irrefl mthr)]

/-- Witness for C1 at `m = 1.5`, `Mtov = 1`, `Mthr = 2`. -/
theorem disk_regime_classification_witness :
    (∃! i : Fin 4, branch 1.5 1 2 i) ∧ YeVdiskOf 1 1 2 = (0.38, vdisk_max) :=
  ⟨(disk_regime_classification 1.5 1 2 (by norm_num) (by norm_num)
      (by norm_num)).1,
   (disk_regime_classification 1.5 1 2 (by norm_num) (by norm_num)
      (by norm_num)).2.1⟩

/-- Claim C7 — the disk-mass floor: `logMdisk >= -3` always; whenever the
tanh expression saturates at or below the floor, `Mdisk` (pre-scatter) is
exactly `10^(-3)`; `Mdisk` is then scaled by `errMdisk` and
`mejecta_purple = Mdisk * disk_frac`. -/
theorem disk_mass_floor (p : Inputs) :
    (-3 ≤ logMdisk p) ∧
    ((-31.335) *
        (1 + (-0.9760) * Real.tanh ((1.0474 - m_total p / Mthr p) / 0.05957)) ≤ -3 →
      MdiskFit p = (10:ℝ) ^ ((-3 : ℝ))) ∧
    Mdisk p = MdiskFit p * p.errMdisk ∧
    mejecta_purple p = Mdisk p * p.disk_frac := by
  refine ⟨le_max_left _ _, ?_, rfl, rfl⟩
  intro h
  unfold MdiskFit logMdisk
  rw [max_eq_left h]

/-- Witness for C7: at `ex7` the tanh term saturates low and the floor value
is attained. -/
theorem disk_mass_floor_witness : MdiskFit ex7 = (10:ℝ) ^ ((-3 : ℝ)) := by
  have htot : m_total ex7 = 2 := m_total_eq_two ex7 rfl rfl
  have hthr : Mthr ex7 = 1.38 := by
    unfold Mthr
    norm_num [ex7]
  have hu : ((1.0474 - m_total ex7 / Mthr ex7) / 0.05957 : ℝ) ≤ 0 := by
    rw [htot, hthr]
    norm_num
  have htanh : Real.tanh ((1.0474 - m_total ex7 / Mthr ex7) / 0.05957) ≤ 0 := by
    rw [Real.tanh_eq_sinh_div_cosh]
    exact div_nonpos_of_nonpos_of_nonneg (Real.sinh_nonpos_iff.2 hu)
      (Real.cosh_pos _).le
  exact (disk_mass_floor ex7).2.1 (by nlinarith [htanh])

/-- The `Ye` component of the classification always lies in `[0.25, 0.38]`
when `Mtov > 0`: each interpolating branch only evaluates its line between
its two endpoint ordinates. -/
theorem YeOf_bounds (m mtov mthr : ℝ) (htov : 0 < mtov) :
    0.25 ≤ (YeVdiskOf m mtov mthr).1 ∧ (YeVdiskOf m mtov mthr).1 ≤ 0.38 := by
  unfold YeVdiskOf
  split_ifs with h1 h2 h3
  · norm_num
  · have hd : (0:ℝ) < 1.2 * mtov - mtov := by linarith
    have hkey : (polyfit2 mtov (1.2 * mtov) 0.38 0.34).1 * m +
        (polyfit2 mtov (1.2 * mtov) 0.38 0.34).2 =
        0.38 - 0.04 * ((m - mtov) / (1.2 * mtov - mtov)) := by
      unfold polyfit2
      field_simp
      ring
    have ht0 : 0 ≤ (m - mtov) / (1.2 * mtov - mtov) :=
      div_nonneg (by linarith [not_lt.1 h1]) hd.le
    have ht1 : (m - mtov) / (1.2 * mtov - mtov) < 1 :=
      (div_lt_one hd).2 (by linarith)
    simp only
    rw [hkey]
    constructor <;> linarith
  · have hle : 1.2 * mtov ≤ m := not_lt.1 h2
    have hd : (0:ℝ) < mthr - 1.2 * mtov := by linarith
    have hkey : (polyfit2 (1.2 * mtov) mthr 0.34 0.25).1 * m +
        (polyfit2 (1.2 * mtov) mthr 0.34 0.25).2 =
        0.34 - 0.09 * ((m - 1.2 * mtov) / (mthr - 1.2 * mtov)) := by
      unfold polyfit2
      field_simp
      ring
    have ht0 : 0 ≤ (m - 1.2 * mtov) / (mthr - 1.2 * mtov) :=
      div_nonneg (by linarith) hd.le
    have ht1 : (m - 1.2 * mtov) / (mthr - 1.2 * mtov) < 1 :=
      (div_lt_one hd).2 (by linarith)
    simp only
    rw [hkey]
    constructor <;> linarith
  · norm_num

/-- The `vdisk` component of the classification always lies in
`[vdisk_min, vdisk_max]` when `Mtov > 0` and `1.2*Mtov < Mthr`. -/
theorem vdiskOf_bounds (m mtov mthr : ℝ) (htov : 0 < mtov)
    (hord : 1.2 * mtov < mthr) :
    vdisk_min ≤ (YeVdiskOf m mtov mthr).2 ∧
      (YeVdiskOf m mtov mthr).2 ≤ vdisk_max := by
  have hd : (0:ℝ) < mthr - mtov := by linarith
  have hkey : (polyfit2 mtov mthr vdisk_max vdisk_min).1 * m +
      (polyfit2 mtov mthr vdisk_max vdisk_min).2 =
      0.15 - 0.12 * ((m - mtov) / (mthr - mtov)) := by
    unfold polyfit2 vdisk_max vdisk_min
    field_simp
    ring
  unfold YeVdiskOf
  split_ifs with h1 h2 h3
  · unfold vdisk_min vdisk_max
    norm_num
  · have ht0 : 0 ≤ (m - mtov) / (mthr - mtov) :=
      div_nonneg (by linarith [not_lt.1 h1]) hd.le
    have ht1 : (m - mtov) / (mthr - mtov) < 1 :=
      (div_lt_one hd).2 (by linarith)
    simp only
    rw [hkey]
    unfold vdisk_min vdisk_max
    constructor <;> linarith
  · have ht0 : 0 ≤ (m - mtov) / (mthr - mtov) :=
      div_nonneg (by linarith [not_lt.1 h2]) hd.le
    have ht1 : (m - mtov) / (mthr - mtov) < 1 :=
      (div_lt_one hd).2 (by linarith)
    simp only
    rw [hkey]
    unfold vdisk_min vdisk_max
    constructor <;> linarith
  · unfold vdisk_min vdisk_max
    norm_num

/-- The Tanaka opacity cubic is strictly positive on the reachable `Ye`
interval `[0.25, 0.38]` (its minimum over the interval is about 1.5455,
attained at `Ye = 0.38`). -/
theorem kappaOfYe_pos (y : ℝ) (h1 : 0.25 ≤ y) (h2 : y ≤ 0.38) :
    0 < kappaOfYe y := by
  have h38 : 0 ≤ 0.38 - y := by linarith
  have h25 : 0 ≤ y - 0.25 := by linarith
  unfold kappaOfYe
  nlinarith [mul_nonneg h25 (sq_nonneg (0.38 - y)),
    mul_nonneg (mul_nonneg h25 h38) h38,
    mul_nonneg (by linarith : (0:ℝ) ≤ y) h38]

/-- Claim C10 — through the public interface (any input with `Mtov > 0` and
positive masses), the selected `Ye` always lies in `[0.25, 0.38]`, and
therefore `kappa_purple` is strictly positive: the negative-opacity regime
of the unclamped cubic is unreachable. -/
theorem ye_range_kappa_pos (p : Inputs) (htov : 0 < p.Mtov)
    (hc : 0 < p.Mchirp) (hq : 0 < p.q) :
    0.25 ≤ Ye p ∧ Ye p ≤ 0.38 ∧ 0 < kappa_purple p := by
  obtain ⟨hl, hu⟩ := YeOf_bounds (m_total p) p.Mtov (Mthr p) htov
  exact ⟨hl, hu, kappaOfYe_pos _ hl hu⟩

/-- Witness for C10 at a physical input. -/
theorem ye_range_kappa_pos_witness :
    0.25 ≤ Ye ⟨1.188, 0.9, 0.3, 2.2, 11, 1, 0.5, 1, 1⟩ ∧
      Ye ⟨1.188, 0.9, 0.3, 2.2, 11, 1, 0.5, 1, 1⟩ ≤ 0.38 ∧
      0 < kappa_purple ⟨1.188, 0.9, 0.3, 2.2, 11, 1, 0.5, 1, 1⟩ :=
  ye_range_kappa_pos _ (by norm_num) (by norm_num) (by norm_num)

/-- `trapz` on an empty sample list is 0. -/
theorem trapz_nil (xs : List ℝ) : trapz [] xs = 0 := rfl

/-- `trapz` on a single sample is 0 (no trapezoid). -/
theorem trapz_single (y : ℝ) (xs : List ℝ) : trapz [y] xs = 0 := by
  cases xs with
  | nil => rfl
  | cons x xtl => cases xtl <;> rfl

/-- `arangeAux` produces a nondecreasing list for nonnegative step. -/
theorem arangeAux_chain (s : ℝ) (hs : 0 ≤ s) :
    ∀ (n : ℕ) (a : ℝ), List.Chain' (· ≤ ·) (arangeAux a s n) := by
  intro n
  induction n with
  | zero => intro a; simp [arangeAux]
  | succ k ih =>
    intro a
    rw [show arangeAux a s (k + 1) = a :: arangeAux (a + s) s k from rfl]
    apply List.chain'_cons'.2
    refine ⟨?_, ih (a + s)⟩
    intro b hb
    cases k with
    | zero => simp [arangeAux] at hb
    | succ k2 =>
      rw [show arangeAux (a + s) s (k2 + 1) = (a + s) :: arangeAux (a + s + s) s k2
        from rfl] at hb
      simp only [List.head?_cons, Option.mem_some_iff] at hb
      rw [← hb]
      linarith

/-- Every element of `arangeAux a s n` is `a + i*s` for some index `i < n`. -/
theorem arangeAux_mem (s : ℝ) :
    ∀ (n : ℕ) (a x : ℝ), x ∈ arangeAux a s n →
      ∃ i : ℕ, i < n ∧ x = a + i * s := by
  intro n
  induction n with
  | zero => intro a x hx; simp [arangeAux] at hx
  | succ k ih =>
    intro a x hx
    rw [show arangeAux a s (k + 1) = a :: arangeAux (a + s) s k from rfl] at hx
    rcases List.mem_cons.1 hx with h | h
    · exact ⟨0, Nat.succ_pos k, by simp [h]⟩
    · obtain ⟨i, hi, hxi⟩ := ih (a + s) x h
      refine ⟨i + 1, by omega, ?_⟩
      rw [hxi]
      push_cast
      ring

/-- The trapezoidal rule is nonnegative for nondecreasing abscissae and
nonnegative ordinates. -/
theorem trapz_nonneg :
    ∀ (ys xs : List ℝ), List.Chain' (· ≤ ·) xs → (∀ y ∈ ys, 0 ≤ y) →
      0 ≤ trapz ys xs := by
  intro ys
  induction ys with
  | nil => intro xs _ _; simp [trapz_nil]
  | cons y1 ytl ih =>
    intro xs hx hy
    cases ytl with
    | nil => simp [trapz_single]
    | cons y2 ytl2 =>
      cases xs with
      | nil => exact ge_of_eq rfl
      | cons x1 xtl =>
        cases xtl with
        | nil => exact ge_of_eq rfl
        | cons x2 xtl2 =>
          rw [show trapz (y1 :: y2 :: ytl2) (x1 :: x2 :: xtl2) =
            (x2 - x1) * (y1 + y2) / 2 + trapz (y2 :: ytl2) (x2 :: xtl2)
            from rfl]
          have hx12 : x1 ≤ x2 := (List.chain'_cons.1 hx).1
          have hxtl : List.Chain' (· ≤ ·) (x2 :: xtl2) :=
            (List.chain'_cons.1 hx).2
          have h1 : 0 ≤ y1 := hy y1 (by simp)
          have h2 : 0 ≤ y2 := hy y2 (by simp)
          have hrest : 0 ≤ trapz (y2 :: ytl2) (x2 :: xtl2) :=
            ih (x2 :: xtl2) hxtl fun y hmem =>
              hy y (List.mem_cons_of_mem _ hmem)
          have hfirst : 0 ≤ (x2 - x1) * (y1 + y2) / 2 :=
            div_nonneg (mul_nonneg (by linarith) (by linarith)) (by norm_num)
          linarith

/-- The trapezoidal rule is strictly positive when the first panel already
contributes positively and the rest is nonnegative. -/
theorem trapz_pos (y1 y2 x1 x2 : ℝ) (ys xs : List ℝ) (h12 : x1 < x2)
    (hy1 : 0 ≤ y1) (hy2 : 0 < y2) (hx : List.Chain' (· ≤ ·) (x2 :: xs))
    (hy : ∀ y ∈ y2 :: ys, 0 ≤ y) :
    0 < trapz (y1 :: y2 :: ys) (x1 :: x2 :: xs) := by
  rw [show trapz (y1 :: y2 :: ys) (x1 :: x2 :: xs) =
    (x2 - x1) * (y1 + y2) / 2 + trapz (y2 :: ys) (x2 :: xs) from rfl]
  have hrest : 0 ≤ trapz (y2 :: ys) (x2 :: xs) := trapz_nonneg _ _ hx hy
  have hfirst : 0 < (x2 - x1) * (y1 + y2) / 2 :=
    div_pos (mul_pos (by linarith) (by linarith)) (by norm_num)
  linarith

/-- Strict positivity of the trapezoidal average ingredients on a uniform
grid of at least two points, given positivity of the integrand at the
second node and nonnegativity on the whole grid. -/
theorem trapz_arange_pos (f : ℝ → ℝ) (a s : ℝ) (n : ℕ) (hs : 0 < s)
    (hn : 2 ≤ n) (hf0 : 0 ≤ f a) (hf1 : 0 < f (a + s))
    (hall : ∀ x ∈ arangeAux a s n, 0 ≤ f x) :
    0 < trapz ((arangeAux a s n).map f) (arangeAux a s n) := by
  obtain ⟨k, rfl⟩ : ∃ k, n = k + 2 := ⟨n - 2, by omega⟩
  have hshape : arangeAux a s (k + 2) =
      a :: (a + s) :: arangeAux (a + s + s) s k := rfl
  rw [hshape, List.map_cons, List.map_cons]
  apply trapz_pos _ _ _ _ _ _ (by linarith) hf0 hf1
  · rw [show (a + s) :: arangeAux (a + s + s) s k = arangeAux (a + s) s (k + 1)
      from rfl]
    exact arangeAux_chain s hs.le (k + 1) (a + s)
  · intro y hmem
    rcases List.mem_cons.1 hmem with h | h
    · rw [h]; exact hf1.le
    · obtain ⟨x, hx, rfl⟩ := List.mem_map.1 h
      apply hall x
      rw [hshape]
      exact List.mem_cons_of_mem _ (List.mem_cons_of_mem _ hx)

/-- The two dynamical-velocity fits cannot vanish simultaneously for
positive masses and compactnesses: eliminating the mass-ratio sum from the
two linear relations forces the positive quantity
`(m1/m2)*C1 + (m2/m1)*C2` to be negative. -/
theorem vdyn_ne_zero (p : Inputs) (hc : 0 < p.Mchirp) (hq : 0 < p.q)
    (hr : 0 < p.radius_ns) : vdynp p ≠ 0 ∨ vdynz p ≠ 0 := by
  by_contra h
  push_neg at h
  obtain ⟨hp, hz⟩ := h
  have hm1 : 0 < m1 p := by
    have hq6 : (0:ℝ) < p.q ^ (-0.6 : ℝ) := Real.rpow_pos_of_pos hq _
    have hq2 : (0:ℝ) < (p.q + 1) ^ (0.2 : ℝ) :=
      Real.rpow_pos_of_pos (by linarith) _
    exact mul_pos (mul_pos hc hq6) hq2
  have hm2 : 0 < m2 p := mul_pos hm1 hq
  have hcc : (0:ℝ) < C_CGS ^ 2 := by norm_num [C_CGS]
  have hc1 : 0 < C1 p := by
    unfold C1
    exact div_pos (mul_pos (mul_pos (by norm_num [G_CGS]) hm1)
      (by norm_num [M_SUN_CGS]))
      (mul_pos (mul_pos hr (by norm_num)) hcc)
  have hc2 : 0 < C2 p := by
    unfold C2
    exact div_pos (mul_pos (mul_pos (by norm_num [G_CGS]) hm2)
      (by norm_num [M_SUN_CGS]))
      (mul_pos (mul_pos hr (by norm_num)) hcc)
  have hP : 0 < m1 p / m2 p * C1 p := mul_pos (div_pos hm1 hm2) hc1
  have hQ : 0 < m2 p / m1 p * C2 p := mul_pos (div_pos hm2 hm1) hc2
  unfold vdynp at hp
  unfold vdynz at hz
  nlinarith [hp, hz, hP, hQ]

/-- Counterexample for claim C6 — at `cos_theta_open = 1` (inside the
claimed domain `[-1, 1]`) the polar grid `arange(0, arccos(1), 0.01)` is
empty, both trapezoidal integrals are 0, and `vejecta_blue` degenerates to
`0/0` (a NaN at runtime, 0 in this embedding): it is not strictly
positive. -/
theorem vejecta_blue_zero_cex :
    ((-1:ℝ) ≤ ex6c.cos_theta_open ∧ ex6c.cos_theta_open ≤ 1) ∧
      vejecta_blue ex6c = 0 := by
  refine ⟨by norm_num [ex6c], ?_⟩
  have hθ : theta_open ex6c = 0 := Real.arccos_one
  unfold vejecta_blue theta1 arange
  rw [hθ, show ((0:ℝ) - 0) / 0.01 = 0 by norm_num, Nat.ceil_zero,
    show arangeAux (0:ℝ) 0.01 0 = [] from rfl, List.map_nil, trapz_nil,
    zero_div, zero_mul]

/-- Claim C6, amended — for valid inputs whose opening angle gives both
angular grids at least two nodes (`0.01 < theta_open < pi/2 - 0.01`) and
whose thresholds are physically ordered (`0 < Mtov`, `1.2*Mtov < Mthr`),
all three ejecta velocities are strictly positive: the trapezoidal
averages are well defined, finite and positive. -/
theorem vejecta_positive (p : Inputs) (hc : 0 < p.Mchirp) (hq : 0 < p.q)
    (hr : 0 < p.radius_ns) (htov : 0 < p.Mtov) (hord : 1.2 * p.Mtov < Mthr p)
    (ho1 : 0.01 < theta_open p) (ho2 : theta_open p < Real.pi / 2 - 0.01) :
    0 < vejecta_blue p ∧ 0 < vejecta_red p ∧ 0 < vejecta_purple p := by
  have hpi3 : (3:ℝ) < Real.pi := Real.pi_gt_three
  have hvd := vdyn_ne_zero p hc hq hr
  have hθπ : theta_open p ≤ Real.pi := Real.arccos_le_pi p.cos_theta_open
  have hvθ : ∀ t : ℝ, 0 < Real.sin t → 0 < Real.cos t → 0 < vthetaFun p t := by
    intro t hst hct
    unfold vthetaFun
    apply Real.sqrt_pos.2
    rcases hvd with hvp | hvz
    · have h1 : 0 < (vdynp p * Real.sin t) ^ 2 :=
        (sq_nonneg _).lt_of_ne (Ne.symm (pow_ne_zero 2 (mul_ne_zero hvp hst.ne')))
      have h2 : 0 ≤ (vdynz p * Real.cos t) ^ 2 := sq_nonneg _
      linarith
    · have h1 : 0 < (vdynz p * Real.cos t) ^ 2 :=
        (sq_nonneg _).lt_of_ne (Ne.symm (pow_ne_zero 2 (mul_ne_zero hvz hct.ne')))
      have h2 : 0 ≤ (vdynp p * Real.sin t) ^ 2 := sq_nonneg _
      linarith
  have hckm : 0 < ckm := by norm_num [ckm, C_CGS, KM_CGS]
  refine ⟨?_, ?_, ?_⟩
  · unfold vejecta_blue theta1 arange
    set n := ⌈(theta_open p - 0) / 0.01⌉₊ with hn
    have hn2 : 2 ≤ n := by
      have h1 : (1:ℕ) < ⌈(theta_open p - 0) / 0.01⌉₊ := by
        apply Nat.lt_ceil.2
        rw [lt_div_iff (by norm_num : (0:ℝ) < 0.01)]
        push_cast
        linarith
      omega
    have hmem : ∀ x ∈ arangeAux 0 0.01 n, 0 ≤ x ∧ x < theta_open p := by
      intro x hx
      obtain ⟨i, hi, rfl⟩ := arangeAux_mem 0.01 n 0 x hx
      rw [hn] at hi
      have hilt : ((i:ℝ)) < (theta_open p - 0) / 0.01 := Nat.lt_ceil.1 hi
      rw [lt_div_iff (by norm_num : (0:ℝ) < 0.01)] at hilt
      constructor
      · positivity
      · linarith
    have hsin : ∀ x ∈ arangeAux 0 0.01 n, 0 ≤ Real.sin x := by
      intro x hx
      obtain ⟨h0, hθ⟩ := hmem x hx
      exact Real.sin_nonneg_of_nonneg_of_le_pi h0 (by linarith)
    have hsin01 : 0 < Real.sin (0 + 0.01) := by
      apply Real.sin_pos_of_pos_of_lt_pi
      · norm_num
      · linarith
    have hcos01 : 0 < Real.cos (0 + 0.01) := by
      apply Real.cos_pos_of_mem_Ioo
      rw [Set.mem_Ioo]
      constructor
      · linarith
      · linarith
    have haθ01 : 0 < athetaFun (0 + 0.01) := by
      unfold athetaFun
      exact mul_pos (mul_pos (by norm_num) Real.pi_pos) hsin01
    have hnum : 0 < trapz
        ((arangeAux 0 0.01 n).map (fun t => vthetaFun p t * athetaFun t))
        (arangeAux 0 0.01 n) := by
      apply trapz_arange_pos _ _ _ _ (by norm_num) hn2
      · apply mul_nonneg (Real.sqrt_nonneg _)
        unfold athetaFun
        rw [Real.sin_zero, mul_zero]
      · exact mul_pos (hvθ _ hsin01 hcos01) haθ01
      · intro x hx
        exact mul_nonneg (Real.sqrt_nonneg _)
          (mul_nonneg (by positivity) (hsin x hx))
    have hden : 0 < trapz ((arangeAux 0 0.01 n).map athetaFun)
        (arangeAux 0 0.01 n) := by
      apply trapz_arange_pos _ _ _ _ (by norm_num) hn2
      · unfold athetaFun
        rw [Real.sin_zero, mul_zero]
      · exact haθ01
      · intro x hx
        unfold athetaFun
        exact mul_nonneg (by positivity) (hsin x hx)
    exact mul_pos (div_pos hnum hden) hckm
  · unfold vejecta_red theta2 arange
    set a := theta_open p with ha
    set n := ⌈(Real.pi / 2 - a) / 0.01⌉₊ with hn
    have hn2 : 2 ≤ n := by
      have h1 : (1:ℕ) < ⌈(Real.pi / 2 - a) / 0.01⌉₊ := by
        apply Nat.lt_ceil.2
        rw [lt_div_iff (by norm_num : (0:ℝ) < 0.01)]
        push_cast
        linarith
      omega
    have hmem : ∀ x ∈ arangeAux a 0.01 n, a ≤ x ∧ x < Real.pi / 2 := by
      intro x hx
      obtain ⟨i, hi, rfl⟩ := arangeAux_mem 0.01 n a x hx
      rw [hn] at hi
      have hilt : ((i:ℝ)) < (Real.pi / 2 - a) / 0.01 := Nat.lt_ceil.1 hi
      rw [lt_div_iff (by norm_num : (0:ℝ) < 0.01)] at hilt
      constructor
      · have : (0:ℝ) ≤ (i:ℝ) * 0.01 := by positivity
        linarith
      · linarith
    have hpos : ∀ x ∈ arangeAux a 0.01 n,
        0 < vthetaFun p x * athetaFun x ∧ 0 < athetaFun x := by
      intro x hx
      obtain ⟨hax, hx2⟩ := hmem x hx
      have hx0 : 0 < x := by linarith
      have hsx : 0 < Real.sin x :=
        Real.sin_pos_of_pos_of_lt_pi hx0 (by linarith)
      have hcx : 0 < Real.cos x := by
        apply Real.cos_pos_of_mem_Ioo
        rw [Set.mem_Ioo]
        exact ⟨by linarith, hx2⟩
      have haθ : 0 < athetaFun x := by
        unfold athetaFun
        exact mul_pos (mul_pos (by norm_num) Real.pi_pos) hsx
      exact ⟨mul_pos (hvθ x hsx hcx) haθ, haθ⟩
    have hmem0 : a ∈ arangeAux a 0.01 n := by
      obtain ⟨k, hk⟩ : ∃ k, n = k + 2 := ⟨n - 2, by omega⟩
      rw [hk, show arangeAux a 0.01 (k + 2) =
        a :: arangeAux (a + 0.01) 0.01 (k + 1) from rfl]
      exact List.mem_cons_self a _
    have hmem1 : a + 0.01 ∈ arangeAux a 0.01 n := by
      obtain ⟨k, hk⟩ : ∃ k, n = k + 2 := ⟨n - 2, by omega⟩
      rw [hk, show arangeAux a 0.01 (k + 2) =
        a :: (a + 0.01) :: arangeAux (a + 0.01 + 0.01) 0.01 k from rfl]
      exact List.mem_cons_of_mem _ (List.mem_cons_self _ _)
    have hnum : 0 < trapz
        ((arangeAux a 0.01 n).map (fun t => vthetaFun p t * athetaFun t))
        (arangeAux a 0.01 n) := by
      apply trapz_arange_pos _ _ _ _ (by norm_num) hn2
      · exact (hpos a hmem0).1.le
      · exact (hpos _ hmem1).1
      · intro x hx
        exact (hpos x hx).1.le
    have hden : 0 < trapz ((arangeAux a 0.01 n).map athetaFun)
        (arangeAux a 0.01 n) := by
      apply trapz_arange_pos _ _ _ _ (by norm_num) hn2
      · exact (hpos a hmem0).2.le
      · exact (hpos _ hmem1).2
      · intro x hx
        exact (hpos x hx).2.le
    exact mul_pos (div_pos hnum hden) hckm
  · have hb := vdiskOf_bounds (m_total p) p.Mtov (Mthr p) htov hord
    have hv : 0 < vdisk p := by
      have h1 : vdisk_min ≤ vdisk p := hb.1
      have h2 : (0:ℝ) < vdisk_min := by norm_num [vdisk_min]
      linarith
    exact mul_pos hv hckm

/-- Witness for the amended C6 at `cos_theta_open = 0.5` (opening angle
`pi/3`). -/
theorem vejecta_positive_witness :
    0 < vejecta_blue ex6 ∧ 0 < vejecta_red ex6 ∧ 0 < vejecta_purple ex6 := by
  have hpi3 : (3:ℝ) < Real.pi := Real.pi_gt_three
  have harc : theta_open ex6 = Real.pi / 3 := by
    have hc : theta_open ex6 = Real.arccos (1/2) := by
      norm_num [theta_open, ex6]
    rw [hc, ← Real.cos_pi_div_three]
    exact Real.arccos_cos (by positivity) (by linarith [Real.pi_pos])
  apply vejecta_positive ex6
  · norm_num [ex6]
  · norm_num [ex6]
  · norm_num [ex6]
  · norm_num [ex6]
  · unfold Mthr
    norm_num [ex6]
  · rw [harc]
    linarith
  · rw [harc]
    linarith

/-- Witness for C4 at a physical input. -/
theorem mejecta_nonneg_witness :
    0 ≤ Mejdyn ⟨1.188, 0.9, 0.3, 2.2, 11, 1.5, 0.5, 1, 1⟩ ∧
      0 ≤ mejecta_blue ⟨1.188, 0.9, 0.3, 2.2, 11, 1.5, 0.5, 1, 1⟩ ∧
      0 ≤ mejecta_red ⟨1.188, 0.9, 0.3, 2.2, 11, 1.5, 0.5, 1, 1⟩ :=
  mejecta_nonneg _ (by norm_num) (by norm_num) (by norm_num) (by norm_num)
    (by norm_num) (by norm_num) (by norm_num)

end MFit.BNS

namespace MFit.Shock

/-- Division of a finite value. -/
theorem Fdiv_fin (x c : ℝ) : Fdiv (F.fin x) c = F.fin (x / c) := rfl

/-- Division of `+inf`. -/
theorem Fdiv_inf (c : ℝ) :
    Fdiv F.inf c = if c < 0 then F.ninf else F.inf := rfl

/-- Power of a positive finite base is the real power. -/
theorem Fpow_fin_pos (x e : ℝ) (hx : 0 < x) :
    Fpow (F.fin x) e = F.fin (x ^ e) := by
  show (if 0 < x then F.fin (x ^ e) else if x = 0 then
      (if 0 < e then F.fin 0 else if e = 0 then F.fin 1 else F.inf)
    else F.nan) = F.fin (x ^ e)
  rw [if_pos hx]

/-- Power of `+inf`. -/
theorem Fpow_inf (e : ℝ) :
    Fpow F.inf e = if 0 < e then F.inf else if e = 0 then F.fin 1 else F.fin 0 :=
  rfl

/-- Multiplication by a finite value. -/
theorem Fmul_fin (c x : ℝ) : Fmul c (F.fin x) = F.fin (c * x) := rfl

/-- Multiplication of `+inf` by a finite factor. -/
theorem Fmul_inf (c : ℝ) :
    Fmul c F.inf = if 0 < c then F.inf else if c < 0 then F.ninf else F.nan :=
  rfl

/-- The `isnan` filter keeps finite values. -/
theorem nanZero_fin (x : ℝ) : nanZero (F.fin x) = F.fin x := rfl

/-- The `isnan` filter keeps `+inf` (it is not a NaN). -/
theorem nanZero_inf : nanZero F.inf = F.inf := rfl

/-- Unfolding equation for one sample. -/
theorem lumAt_eq (p : ShockInputs) (x : ℝ) :
    lumAt p x =
      Fmul (L0 p) (Fpow (Fdiv (tAt p x) (tau_diff p)) (-(4 / (p.s + 2)))) :=
  rfl

/-- The diffusion constant is positive. -/
theorem DIFF_pos : 0 < DIFF_CONST := by
  unfold DIFF_CONST FOUR_PI
  apply div_pos (by norm_num [M_SUN_CGS])
  have := Real.pi_pos
  apply mul_pos (mul_pos (by linarith) (by norm_num [C_CGS]))
  norm_num [KM_CGS]

/-- The diffusion constant is below `5.6e16` (using `pi > 3`). -/
theorem DIFF_lt : DIFF_CONST < 5.6e16 := by
  have h3 : (3:ℝ) < Real.pi := Real.pi_gt_three
  unfold DIFF_CONST FOUR_PI M_SUN_CGS C_CGS KM_CGS
  rw [div_lt_iff (by nlinarith [Real.pi_pos])]
  nlinarith

/-- The diffusion timescale is positive for valid inputs. -/
theorem tau_pos (p : ShockInputs) (hk : 0 < p.kappa) (hm : 0 < p.mejecta)
    (hv : 0 < p.vejecta) : 0 < tau_diff p := by
  unfold tau_diff
  apply div_pos _ (by norm_num [DAY_CGS])
  exact Real.sqrt_pos.2 (div_pos (mul_pos (mul_pos DIFF_pos hk) hm) hv)

/-- The luminosity normalisation is nonnegative for valid inputs. -/
theorem L0_nonneg (p : ShockInputs) (hm : 0 < p.mejecta) (hv : 0 < p.vejecta)
    (hts : 0 < p.t_shock) (hτ : 0 < tau_diff p) : 0 ≤ L0 p := by
  unfold L0
  apply mul_nonneg (Real.rpow_nonneg (by positivity) _)
  apply le_of_lt
  apply div_pos
  · have hR : 0 < R p := mul_pos (by norm_num [C_CGS]) hts
    have h1 : (0:ℝ) < M_SUN_CGS := by norm_num [M_SUN_CGS]
    have h2 : (0:ℝ) < KM_CGS := by norm_num [KM_CGS]
    positivity
  · exact pow_pos (mul_pos hτ (by norm_num [DAY_CGS])) 2

/-- The luminosity normalisation is positive for an open cocoon. -/
theorem L0_pos (p : ShockInputs) (hm : 0 < p.mejecta) (hv : 0 < p.vejecta)
    (hts : 0 < p.t_shock) (hτ : 0 < tau_diff p)
    (hcos : p.cos_theta_cocoon < 1) : 0 < L0 p := by
  have hθ : 0 < theta p := Real.arccos_pos.2 hcos
  unfold L0
  apply mul_pos (Real.rpow_pos_of_pos (by positivity) _)
  apply div_pos
  · have hR : 0 < R p := mul_pos (by norm_num [C_CGS]) hts
    have h1 : (0:ℝ) < M_SUN_CGS := by norm_num [M_SUN_CGS]
    have h2 : (0:ℝ) < KM_CGS := by norm_num [KM_CGS]
    positivity
  · exact pow_pos (mul_pos hτ (by norm_num [DAY_CGS])) 2

/-- A pre-explosion sample evaluates to exactly `0.0` when the
power-law exponent is negative (`s > -2`): `inf**(negative) = 0.0`. -/
theorem lumAt_before (p : ShockInputs) (hτ : 0 < tau_diff p) (hs : -2 < p.s)
    (t : ℝ) (ht : t < p.rest_t_explosion) : nanZero (lumAt p t) = F.fin 0 := by
  have hexp : (-(4 / (p.s + 2)) : ℝ) < 0 := by
    have h2 : (0:ℝ) < p.s + 2 := by linarith
    have : (0:ℝ) < 4 / (p.s + 2) := div_pos (by norm_num) h2
    linarith
  have h1 : tAt p t = F.inf := by
    unfold tAt
    rw [if_pos ht]
  rw [lumAt_eq, h1, Fdiv_inf, if_neg (not_lt.2 hτ.le), Fpow_inf,
    if_neg (not_lt.2 hexp.le), if_neg hexp.ne, Fmul_fin, mul_zero, nanZero_fin]

/-- A post-explosion sample is the finite power-law value. -/
theorem lumAt_after (p : ShockInputs) (hτ : 0 < tau_diff p) (t : ℝ)
    (ht : p.rest_t_explosion < t) :
    nanZero (lumAt p t) = F.fin (L0 p *
      ((t - p.rest_t_explosion) / tau_diff p) ^ (-(4 / (p.s + 2)))) := by
  have h1 : tAt p t = F.fin (t - p.rest_t_explosion) := by
    unfold tAt
    rw [if_neg (not_lt.2 ht.le)]
  have hb : 0 < (t - p.rest_t_explosion) / tau_diff p :=
    div_pos (by linarith) hτ
  rw [lumAt_eq, h1, Fdiv_fin, Fpow_fin_pos _ _ hb, Fmul_fin, nanZero_fin]

/-- Counterexample for claim C8 — at `ex8` (`s = -3`, so `s /= -2`, and the
single epoch `0` precedes `rest_t_explosion = 1`) the returned value is
`+inf`, not `0.0`: the exponent `-(4/(s+2)) = 4` is positive, so
`inf**4 = inf`, and the `isnan` filter does not replace infinities. -/
theorem shock_pre_explosion_inf_cex :
    ex8.s ≠ -2 ∧ (0:ℝ) ∈ ex8.dense_times ∧ (0:ℝ) < ex8.rest_t_explosion ∧
      luminosities ex8 = [F.inf] ∧ F.inf ≠ F.fin 0 := by
  have hτ : 0 < tau_diff ex8 :=
    tau_pos ex8 (by norm_num [ex8]) (by norm_num [ex8]) (by norm_num [ex8])
  have hL : 0 < L0 ex8 :=
    L0_pos ex8 (by norm_num [ex8]) (by norm_num [ex8]) (by norm_num [ex8]) hτ
      (by norm_num [ex8])
  refine ⟨by norm_num [ex8], by simp [ex8], by norm_num [ex8], ?_,
    fun h => F.noConfusion h⟩
  have hexp : (-(4 / (ex8.s + 2)) : ℝ) = 4 := by norm_num [ex8]
  have h1 : tAt ex8 0 = F.inf := by
    unfold tAt
    rw [if_pos (by norm_num [ex8] : ex8.rest_t_explosion > 0)]
  have hval : nanZero (lumAt ex8 0) = F.inf := by
    rw [lumAt_eq, h1, Fdiv_inf, if_neg (not_lt.2 hτ.le), hexp, Fpow_inf,
      if_pos (by norm_num : (0:ℝ) < 4), Fmul_inf, if_pos hL, nanZero_inf]
  unfold luminosities
  rw [show ex8.dense_times = [0] from rfl, List.map_cons, List.map_nil, hval]

/-- Claim C8, amended — for `s > -2`, valid inputs, and a time grid that
does not contain the explosion epoch itself, the output has exactly one
value per entry of `dense_times` aligned index-for-index; every value at a
time `t < rest_t_explosion` is exactly `0.0`; and every returned value is a
nonnegative finite real. -/
theorem shock_luminosity_shape (p : ShockInputs) (hs : -2 < p.s)
    (hk : 0 < p.kappa) (hm : 0 < p.mejecta) (hv : 0 < p.vejecta)
    (hts : 0 < p.t_shock)
    (hne : ∀ t ∈ p.dense_times, t ≠ p.rest_t_explosion) :
    (luminosities p).length = p.dense_times.length ∧
    (∀ i : ℕ, (luminosities p)[i]? =
      (p.dense_times[i]?).map fun t => nanZero (lumAt p t)) ∧
    (∀ t ∈ p.dense_times, t < p.rest_t_explosion →
      nanZero (lumAt p t) = F.fin 0) ∧
    (∀ t ∈ p.dense_times, ∃ x : ℝ, 0 ≤ x ∧ nanZero (lumAt p t) = F.fin x) := by
  have hτ : 0 < tau_diff p := tau_pos p hk hm hv
  have hL : 0 ≤ L0 p := L0_nonneg p hm hv hts hτ
  refine ⟨List.length_map _ _, fun i => List.getElem?_map .., ?_, ?_⟩
  · intro t _ ht
    exact lumAt_before p hτ hs t ht
  · intro t htmem
    rcases lt_trichotomy t p.rest_t_explosion with h | h | h
    · exact ⟨0, le_refl 0, lumAt_before p hτ hs t h⟩
    · exact absurd h (hne t htmem)
    · refine ⟨_, ?_, lumAt_after p hτ t h⟩
      exact mul_nonneg hL
        (Real.rpow_pos_of_pos (div_pos (by linarith) hτ) _).le

/-- Witness for the amended C8 at `ex8w` (`s = 1`, epochs 0 and 2 around the
explosion at 1). -/
theorem shock_luminosity_shape_witness :
    (luminosities ex8w).length = ex8w.dense_times.length ∧
    (∀ i : ℕ, (luminosities ex8w)[i]? =
      (ex8w.dense_times[i]?).map fun t => nanZero (lumAt ex8w t)) ∧
    (∀ t ∈ ex8w.dense_times, t < ex8w.rest_t_explosion →
      nanZero (lumAt ex8w t) = F.fin 0) ∧
    (∀ t ∈ ex8w.dense_times, ∃ x : ℝ, 0 ≤ x ∧
      nanZero (lumAt ex8w t) = F.fin x) :=
  shock_luminosity_shape ex8w (by norm_num [ex8w]) (by norm_num [ex8w])
    (by norm_num [ex8w]) (by norm_num [ex8w]) (by norm_num [ex8w])
    (by intro t ht; simp [ex8w] at ht; rcases ht with h | h <;> norm_num [h, ex8w])

/-- Counterexample for claim C9 — at `ex9c` the inputs are valid and
`s = 1 > -2`, both epochs `1e6 < 2e6` exceed `rest_t_explosion + tau_diff`,
yet the two luminosities are equal (both exactly 0, because
`cos_theta_cocoon = 1` closes the cocoon and `L0 = 0`): the luminosity is
not strictly decreasing there. -/
theorem shock_not_decreasing_cex :
    (-2:ℝ) < ex9c.s ∧ (1e6:ℝ) ∈ ex9c.dense_times ∧
      (2e6:ℝ) ∈ ex9c.dense_times ∧
      ex9c.rest_t_explosion + tau_diff ex9c < 1e6 ∧ (1e6:ℝ) < 2e6 ∧
      nanZero (lumAt ex9c 1e6) = F.fin 0 ∧
      nanZero (lumAt ex9c 2e6) = F.fin 0 := by
  have hτ : 0 < tau_diff ex9c :=
    tau_pos ex9c (by norm_num [ex9c]) (by norm_num [ex9c]) (by norm_num [ex9c])
  have hτlt : tau_diff ex9c < 1e6 := by
    unfold tau_diff
    rw [show DIFF_CONST * ex9c.kappa * ex9c.mejecta / ex9c.vejecta = DIFF_CONST
      by norm_num [ex9c]]
    rw [div_lt_iff (by norm_num [DAY_CGS] : (0:ℝ) < DAY_CGS)]
    have hs : Real.sqrt DIFF_CONST < 8.64e10 :=
      (Real.sqrt_lt' (by norm_num)).2 (by nlinarith [DIFF_lt])
    calc Real.sqrt DIFF_CONST < 8.64e10 := hs
      _ = 1e6 * DAY_CGS := by norm_num [DAY_CGS]
  have hL0 : L0 ex9c = 0 := by
    have hθ : theta ex9c = 0 := Real.arccos_one
    unfold L0
    rw [hθ, show ((0:ℝ) ^ 2 / 2 : ℝ) = 0 by norm_num,
      Real.zero_rpow (by norm_num : ((1:ℝ)/3) ≠ 0), zero_mul]
  have h1 := lumAt_after ex9c hτ 1e6 (by norm_num [ex9c])
  have h2 := lumAt_after ex9c hτ 2e6 (by norm_num [ex9c])
  rw [hL0, zero_mul] at h1 h2
  refine ⟨by norm_num [ex9c], by simp [ex9c], by simp [ex9c], ?_,
    by norm_num, h1, h2⟩
  have : ex9c.rest_t_explosion = 0 := rfl
  rw [this]
  linarith

/-- Claim C9, amended — for `s > -2`, valid inputs, and an open cocoon
(`cos_theta_cocoon < 1`, so `L0 > 0`), the luminosity is strictly
decreasing past `rest_t_explosion + tau_diff`: for any two epochs
`t1 < t2` of `dense_times` beyond that point, the sample at `t1` strictly
exceeds the sample at `t2`. -/
theorem shock_luminosity_decreasing (p : ShockInputs) (hs : -2 < p.s)
    (hk : 0 < p.kappa) (hm : 0 < p.mejecta) (hv : 0 < p.vejecta)
    (hts : 0 < p.t_shock) (hcos : p.cos_theta_cocoon < 1) (t1 t2 : ℝ)
    (ht1 : t1 ∈ p.dense_times) (ht2 : t2 ∈ p.dense_times)
    (hlo : p.rest_t_explosion + tau_diff p < t1) (h12 : t1 < t2) :
    ∃ x1 x2 : ℝ, nanZero (lumAt p t1) = F.fin x1 ∧
      nanZero (lumAt p t2) = F.fin x2 ∧ x2 < x1 := by
  have hτ : 0 < tau_diff p := tau_pos p hk hm hv
  have hL : 0 < L0 p := L0_pos p hm hv hts hτ hcos
  have h1r : p.rest_t_explosion < t1 := by linarith
  have h2r : p.rest_t_explosion < t2 := by linarith
  have hexp : (-(4 / (p.s + 2)) : ℝ) < 0 := by
    have h2 : (0:ℝ) < p.s + 2 := by linarith
    have : (0:ℝ) < 4 / (p.s + 2) := div_pos (by norm_num) h2
    linarith
  have hd1 : 0 < (t1 - p.rest_t_explosion) / tau_diff p :=
    div_pos (by linarith) hτ
  have hd2 : 0 < (t2 - p.rest_t_explosion) / tau_diff p :=
    div_pos (by linarith) hτ
  have hdd : (t1 - p.rest_t_explosion) / tau_diff p <
      (t2 - p.rest_t_explosion) / tau_diff p :=
    div_lt_div_of_pos_right (by linarith) hτ
  refine ⟨_, _, lumAt_after p hτ t1 h1r, lumAt_after p hτ t2 h2r, ?_⟩
  have hpow : ((t2 - p.rest_t_explosion) / tau_diff p) ^ (-(4 / (p.s + 2))) <
      ((t1 - p.rest_t_explosion) / tau_diff p) ^ (-(4 / (p.s + 2))) := by
    rw [Real.rpow_def_of_pos hd2, Real.rpow_def_of_pos hd1]
    apply Real.exp_lt_exp.2
    exact mul_lt_mul_of_neg_right (Real.log_lt_log hd1 hdd) hexp
  exact mul_lt_mul_of_pos_left hpow hL

/-- Witness for the amended C9 at `ex9` (epochs 3000 and 4000 days, past
`tau_diff < 3000` days). -/
theorem shock_luminosity_decreasing_witness :
    ∃ x1 x2 : ℝ, nanZero (lumAt ex9 3000) = F.fin x1 ∧
      nanZero (lumAt ex9 4000) = F.fin x2 ∧ x2 < x1 := by
  have hτlt : tau_diff ex9 < 3000 := by
    unfold tau_diff
    rw [show DIFF_CONST * ex9.kappa * ex9.mejecta / ex9.vejecta = DIFF_CONST
      by norm_num [ex9]]
    rw [div_lt_iff (by norm_num [DAY_CGS] : (0:ℝ) < DAY_CGS)]
    have hs : Real.sqrt DIFF_CONST < 2.592e8 :=
      (Real.sqrt_lt' (by norm_num)).2 (by nlinarith [DIFF_lt])
    calc Real.sqrt DIFF_CONST < 2.592e8 := hs
      _ = 3000 * DAY_CGS := by norm_num [DAY_CGS]
  apply shock_luminosity_decreasing ex9 (by norm_num [ex9]) (by norm_num [ex9])
    (by norm_num [ex9]) (by norm_num [ex9]) (by norm_num [ex9])
    (by norm_num [ex9]) 3000 4000 (by simp [ex9]) (by simp [ex9])
  · have : ex9.rest_t_explosion = 0 := rfl
    rw [this]
    linarith
  · norm_num

end MFit.Shock
